import Mathlib

/-
  Verification development for the dense linear-algebra kernel of the
  repository (qr.hpp: Householder QR, Gauss-Jordan inversion,
  least-squares solver, Moore-Penrose pseudoinverse, Frobenius condition
  number).  Matrices `std::vector<std::vector<double>>` are embedded as a
  dimension-carrying entry function; floating-point doubles are embedded
  as exact field arithmetic (ℚ for the rational-only routines so that
  concrete runs are decidable, ℝ where the source takes square roots).
  C++ exceptions are embedded as `Except`; an out-of-bounds
  `std::vector::operator[]` access (undefined behavior in the source) is
  embedded as `none` in the `...Run` wrappers.
-/

set_option maxHeartbeats 1600000
set_option maxRecDepth 8000

namespace lin

/-- Error taxonomy of the kernel (spec section 7).  The C++ source signals
these as exceptions; the embedding carries them in `Except`. -/
inductive LinError where
  | DimensionMismatch
  | NonSquareMatrix
  | SingularMatrix
  | SingularSystem
deriving DecidableEq

/-- A dense m by n matrix: explicit dimensions plus an entry function.
Entries outside the stated bounds are meaningless junk. -/
structure Mat (α : Type) where
  rows : ℕ
  cols : ℕ
  entry : ℕ → ℕ → α

variable {α : Type} [LinearOrderedField α]

/-- The pivot / diagonal magnitude threshold 1e-12 used by the source. -/
def eps : α := 1 / 10 ^ 12

/-- Build a matrix from a row-major list of rows (the shape of the C++
initializer lists in the tests). -/
def ofRows (l : List (List α)) : Mat α :=
  ⟨l.length, (l.headD []).length, fun i j => (l.getD i []).getD j 0⟩

/-- The empty matrix `Matrix()` returned by `pseudoinverse` on empty input. -/
def emptyMat : Mat α := ⟨0, 0, fun _ _ => 0⟩

/-- Extensional equality of matrices: same dimensions and same entries
inside the bounds. -/
def MatExt (A B : Mat α) : Prop :=
  A.rows = B.rows ∧ A.cols = B.cols ∧
    ∀ i < A.rows, ∀ j < A.cols, A.entry i j = B.entry i j

instance (A B : Mat α) [DecidableEq α] : Decidable (MatExt A B) := by
  unfold MatExt
  exact inferInstance

/-- qr.hpp `identity`: the n by n identity matrix. -/
def identity (n : ℕ) : Mat α :=
  ⟨n, n, fun i j => if i = j then 1 else 0⟩

/-- qr.hpp / pseudoinverse.cpp `transpose`: B(j,i) = A(i,j).  Both sources
read `A[0].size()` unconditionally; that out-of-bounds access on an empty
matrix is modeled by `transposeRun` below. -/
def transpose (A : Mat α) : Mat α :=
  ⟨A.cols, A.rows, fun i j => A.entry j i⟩

/-- `transpose` including its access pattern: `A[0]` is read even when A
has no rows, which is undefined behavior (modeled as `none`). -/
def transposeRun (A : Mat α) : Option (Mat α) :=
  if A.rows = 0 then none else some (transpose A)

/-- qr.hpp `matmul`: C = A * B with the inner sum ranging over `A[0].size()`
(= A.cols) as in the source loop `for k < n`. -/
def matmul (A B : Mat α) : Mat α :=
  ⟨A.rows, B.cols, fun i j => ∑ k in Finset.range A.cols, A.entry i k * B.entry k j⟩

/-- `matmul` including its access pattern.  The source performs no
dimension check: it reads `A[0]` and `B[0]` unconditionally, and reads
`B[k][j]` for every k < A.cols and j < B.cols; when B.rows < A.cols and
B.cols > 0 this is an out-of-bounds access (undefined behavior, `none`). -/
def matmulRun (A B : Mat α) : Option (Mat α) :=
  if A.rows = 0 ∨ B.rows = 0 then none
  else if B.rows < A.cols ∧ 0 < B.cols then none
  else some (matmul A B)

/-- pseudoinverse.cpp `multiply`: C = A * B with the inner sum ranging over
`inner = B.size()` (= B.rows).  The source skips the inner update when
`A[i][k] == 0.0`; over a field that guard only skips adding zero terms, so
the embedding sums unconditionally. -/
def multiply (A B : Mat α) : Mat α :=
  ⟨A.rows, B.cols, fun i j => ∑ k in Finset.range B.rows, A.entry i k * B.entry k j⟩

/-- pseudoinverse.cpp `inverse`, augmented matrix `[A | I]` of size n by 2n. -/
def augInit (A : Mat α) : Mat α :=
  ⟨A.rows, 2 * A.rows, fun i j =>
    if j < A.rows then A.entry i j else if j = A.rows + i then 1 else 0⟩

/-- Partial pivoting: the row in [i, rows) whose column-i entry has the
largest magnitude, earliest such row on ties (the source compares with
strict `>` starting from `pivot = i`). -/
def pivotRow (M : Mat α) (i : ℕ) : ℕ :=
  (List.range (M.rows - i)).foldl
    (fun p r => if |M.entry (i + r) i| > |M.entry p i| then i + r else p) i

/-- `std::swap(aug[pivot], aug[i])`. -/
def rowSwap (M : Mat α) (i p : ℕ) : Mat α :=
  ⟨M.rows, M.cols, fun r j =>
    if r = i then M.entry p j else if r = p then M.entry i j else M.entry r j⟩

/-- Divide row i of M by d (`aug[i][j] /= diag`). -/
def rowScale (M : Mat α) (i : ℕ) (d : α) : Mat α :=
  ⟨M.rows, M.cols, fun r j => if r = i then M.entry r j / d else M.entry r j⟩

/-- Subtract `aug[r][i]` times the (already scaled) pivot row i from every
other row r.  The source guard `if (factor != 0.0)` only skips subtracting
zero, so the embedding subtracts unconditionally. -/
def elimOther (M : Mat α) (i : ℕ) : Mat α :=
  ⟨M.rows, M.cols, fun r j =>
    if r = i then M.entry r j else M.entry r j - M.entry r i * M.entry i j⟩

/-- One Gauss-Jordan pivot step on column i: select the pivot row, fail
with SingularMatrix when its magnitude is below 1e-12, else swap, scale
the pivot row to 1 and eliminate column i from the other rows. -/
def gjStep (M : Mat α) (i : ℕ) : Except LinError (Mat α) :=
  let p := pivotRow M i
  if |M.entry p i| < eps then .error .SingularMatrix
  else
    let M1 := rowSwap M i p
    .ok (elimOther (rowScale M1 i (M1.entry i i)) i)

/-- The augmented-matrix state after the first k pivot steps of
Gauss-Jordan elimination on A. -/
def gjRun (A : Mat α) : ℕ → Except LinError (Mat α)
  | 0 => .ok (augInit A)
  | k + 1 => (gjRun A k).bind fun M => gjStep M k

/-- pseudoinverse.cpp `inverse`: requires A square and nonempty
(`A.empty() || A[0].size() != n` throws), runs n pivot steps on `[A | I]`
and extracts the right half. -/
def inverse (A : Mat α) : Except LinError (Mat α) :=
  if A.rows = 0 ∨ A.cols ≠ A.rows then .error .NonSquareMatrix
  else (gjRun A A.rows).map fun M =>
    ⟨A.rows, A.rows, fun i j => M.entry i (A.rows + j)⟩

/-- pseudoinverse.cpp `pseudoinverse`: empty input gives the empty matrix;
otherwise the shape-selected normal-equation formula, delegating the
inversion to `inverse`. -/
def pseudoinverse (A : Mat α) : Except LinError (Mat α) :=
  if A.rows = 0 ∨ A.cols = 0 then .ok emptyMat
  else if A.cols ≤ A.rows then
    (inverse (multiply (transpose A) A)).map fun M => multiply M (transpose A)
  else
    (inverse (multiply A (transpose A))).map fun M => multiply (transpose A) M

/-- The matrix of a successful result (`emptyMat` on error). -/
def resMat : Except LinError (Mat α) → Mat α
  | .ok B => B
  | .error _ => emptyMat

/-- The error of a failed result (`none` on success). -/
def resErr : Except LinError (Mat α) → Option LinError
  | .ok _ => none
  | .error e => some e

/-- Entry (i, j) of a successful result (0 on error). -/
def resEntry (e : Except LinError (Mat α)) (i j : ℕ) : α :=
  (resMat e).entry i j

/-- Component i of y = Qᵗ b as computed by `solve_qr`
(`y[i] += Q[j][i] * b[j]`). -/
def qtb (Q : Mat α) (b : List α) (i : ℕ) : α :=
  ∑ j in Finset.range Q.rows, Q.entry j i * b.getD j 0

/-- Back-substitution state of `solve_qr` after t iterations of the loop
`for (i = n; i-- > 0;)`: iteration t handles index i = n - 1 - t, failing
with SingularSystem when |R[i][i]| < 1e-12.  The vector starts as all
zeros (`std::vector<double> x(n, 0.0)`). -/
def backSub (R : Mat α) (y : ℕ → α) (n : ℕ) : ℕ → Except LinError (ℕ → α)
  | 0 => .ok fun _ => 0
  | t + 1 =>
    (backSub R y n t).bind fun x =>
      let i := n - 1 - t
      let s := ∑ j in Finset.Ico (i + 1) n, R.entry i j * x j
      if |R.entry i i| < eps then .error .SingularSystem
      else .ok (Function.update x i ((y i - s) / R.entry i i))

/-- qr.hpp `solve_qr`: check b.size() == Q.size(), compute y = Qᵗ b, then
back-substitute through the first R.cols rows of R. -/
def solve_qr (Q R : Mat α) (b : List α) : Except LinError (List α) :=
  if b.length ≠ Q.rows then .error .DimensionMismatch
  else (backSub R (qtb Q b) R.cols R.cols).map fun x => (List.range R.cols).map x

/-- qr.hpp `householder_reflect`: build the Householder vector from the
sub-column of A at (start.., col), normalize it, reflect the trailing
columns of A and accumulate the same reflection into the columns of Q.
The two early returns on a zero norm are the source's. -/
noncomputable def householder_reflect (A Q : Mat ℝ) (start col : ℕ) : Mat ℝ × Mat ℝ :=
  let len := A.rows - start
  let x : ℕ → ℝ := fun k => A.entry (start + k) col
  let norm_x : ℝ := Real.sqrt (∑ k in Finset.range len, x k * x k)
  if norm_x = 0 then (A, Q)
  else
    let w : ℕ → ℝ := fun k =>
      if k = 0 then x 0 + (if 0 ≤ x 0 then norm_x else -norm_x) else x k
    let norm_v : ℝ := Real.sqrt (∑ k in Finset.range len, w k * w k)
    if norm_v = 0 then (A, Q)
    else
      let v : ℕ → ℝ := fun k => w k / norm_v
      let A2 : Mat ℝ := ⟨A.rows, A.cols, fun i j =>
        if start ≤ i ∧ i < start + len ∧ col ≤ j ∧ j < A.cols then
          A.entry i j - 2 * (∑ k in Finset.range len, v k * A.entry (start + k) j) * v (i - start)
        else A.entry i j⟩
      let Q2 : Mat ℝ := ⟨Q.rows, Q.cols, fun r c =>
        if start ≤ c ∧ c < start + len then
          Q.entry r c - 2 * (∑ k in Finset.range len, v k * Q.entry r (start + k)) * v (c - start)
        else Q.entry r c⟩
      (A2, Q2)

/-- qr.hpp `qr_decompose`: R starts as A, Q as the identity; one reflection
per column up to min(m, n); then the strict lower triangle of R is zeroed
and the accumulated Q is transposed.  Returns (Q, R). -/
noncomputable def qr_decompose (A : Mat ℝ) : Mat ℝ × Mat ℝ :=
  let m := A.rows
  let p := (List.range (min m A.cols)).foldl
    (fun RQ col => householder_reflect RQ.1 RQ.2 col col) (A, identity m)
  let R : Mat ℝ := ⟨m, A.cols, fun i j => if j < i ∧ j < A.cols then 0 else p.1.entry i j⟩
  (transpose p.2, R)

/-- pseudoinverse.cpp `frobenius_norm`: the square root of the sum of all
squared entries (taken in ℝ, the entries being exact rationals). -/
noncomputable def frobenius_norm (A : Mat ℚ) : ℝ :=
  Real.sqrt (∑ i in Finset.range A.rows, ∑ j in Finset.range A.cols,
    (A.entry i j : ℝ) * (A.entry i j : ℝ))

/-- pseudoinverse.cpp `condition_number`: ‖A‖_F * ‖A⁺‖_F, any exception
from the pseudoinverse propagating to the caller. -/
noncomputable def condition_number (A : Mat ℚ) : Except LinError ℝ :=
  (pseudoinverse A).map fun p => frobenius_norm A * frobenius_norm p

/-- A square slice of a `Mat` as a Mathlib matrix, to borrow algebraic
facts about square matrices over ℚ. -/
def toMx (n : ℕ) (A : Mat α) : Matrix (Fin n) (Fin n) α :=
  Matrix.of fun i j => A.entry i j

/-- The concrete 2 by 2 input [[0,1],[1,0]] used to exhibit the
qr_decompose product defect (claim C1). -/
noncomputable def M01 : Mat ℝ := ofRows [[0,1],[1,0]]

/-- State after the first Householder reflection of qr_decompose on
`M01` (working pair: triangularized copy, accumulated Q). -/
noncomputable def qrS1 : Mat ℝ × Mat ℝ := householder_reflect M01 (identity 2) 0 0

/-- State after the second (final) Householder reflection on `M01`. -/
noncomputable def qrS2 : Mat ℝ × Mat ℝ := householder_reflect qrS1.1 qrS1.2 1 1

/-- Elimination invariant: rows and columns of the augmented state are
those of `[A | I]`, and each left-half entry is the inner product of the
corresponding right-half row with A (every row operation is a linear
recombination of rows, which preserves this relation). -/
def GJInv (A M : Mat α) : Prop :=
  M.rows = A.rows ∧ M.cols = 2 * A.rows ∧
    ∀ r < A.rows, ∀ j < A.rows,
      M.entry r j = ∑ k in Finset.range A.rows, M.entry r (A.rows + k) * A.entry k j

/-- Progress invariant: after the first i pivot steps the first i columns
of the left half agree with the identity matrix. -/
def GJCols (A M : Mat α) (i : ℕ) : Prop :=
  ∀ j < i, ∀ r < A.rows, M.entry r j = if r = j then (1 : α) else 0

/- ------------------------------------------------------------------ -/
/- Basic accessor lemmas.                                              -/
/- ------------------------------------------------------------------ -/

@[simp] lemma transpose_rows (A : Mat α) : (transpose A).rows = A.cols := rfl

@[simp] lemma transpose_cols (A : Mat α) : (transpose A).cols = A.rows := rfl

@[simp] lemma transpose_entry (A : Mat α) (i j : ℕ) :
    (transpose A).entry i j = A.entry j i := rfl

@[simp] lemma matmul_rows (A B : Mat α) : (matmul A B).rows = A.rows := rfl

@[simp] lemma matmul_cols (A B : Mat α) : (matmul A B).cols = B.cols := rfl

lemma matmul_entry (A B : Mat α) (i j : ℕ) :
    (matmul A B).entry i j = ∑ k in Finset.range A.cols, A.entry i k * B.entry k j := rfl

@[simp] lemma multiply_rows (A B : Mat α) : (multiply A B).rows = A.rows := rfl

@[simp] lemma multiply_cols (A B : Mat α) : (multiply A B).cols = B.cols := rfl

lemma multiply_entry (A B : Mat α) (i j : ℕ) :
    (multiply A B).entry i j = ∑ k in Finset.range B.rows, A.entry i k * B.entry k j := rfl

@[simp] lemma identity_rows (n : ℕ) : (identity n : Mat α).rows = n := rfl

@[simp] lemma identity_cols (n : ℕ) : (identity n : Mat α).cols = n := rfl

lemma identity_entry (n i j : ℕ) :
    (identity n : Mat α).entry i j = if i = j then 1 else 0 := rfl

@[simp] lemma qr_R_rows (A : Mat ℝ) : ((qr_decompose A).2).rows = A.rows := rfl

@[simp] lemma qr_R_cols (A : Mat ℝ) : ((qr_decompose A).2).cols = A.cols := rfl

/- ------------------------------------------------------------------ -/
/- Claim C7.                                                           -/
/- ------------------------------------------------------------------ -/

/-- Claim C7: after `qr_decompose(A)` returns, every entry of R strictly
below the diagonal (row i, column j with j < i) is exactly 0 — the final
cleanup loop zeroes the whole strict lower triangle unconditionally, not
only entries of magnitude below 1e-12. -/
theorem qr_lower_triangle_zero (A : Mat ℝ) (hm : 1 ≤ A.rows) (hn : 1 ≤ A.cols)
    (i j : ℕ) (hi : i < A.rows) (hji : j < i) (hjn : j < A.cols) :
    ((qr_decompose A).2).entry i j = 0 := by
  simp only [qr_decompose]
  simp [hji, hjn]

/-- Witness for C7 at the concrete matrix [[1,0],[0,1]] and entry (1,0). -/
theorem qr_lower_triangle_zero_witness :
    ((qr_decompose (ofRows [[1,0],[0,1]] : Mat ℝ)).2).entry 1 0 = 0 :=
  qr_lower_triangle_zero _ (by decide) (by decide) 1 0 (by decide) (by decide) (by decide)

/- ------------------------------------------------------------------ -/
/- Claim C8.                                                           -/
/- ------------------------------------------------------------------ -/

/-- Claim C8 counterexample: on a matrix with zero rows, `transpose` does
not return a result at all — the source reads `A[0]` out of bounds
(undefined behavior, modeled as `none`), refuting the claim that m = 0 is
supported with no error condition. -/
theorem transpose_zero_rows_cx :
    transposeRun (ofRows ([] : List (List ℚ))) = none := rfl

/-- Claim C8 (amended): for every matrix with at least one row (n may be
0), `transpose` is error-free and returns the n-by-m matrix with entry
(j,i) = A(i,j); on a zero-row matrix the source instead reads `A[0]` out
of bounds. -/
theorem transpose_behavior :
    (∀ A : Mat ℚ, 0 < A.rows →
      transposeRun A = some (transpose A) ∧
      (transpose A).rows = A.cols ∧ (transpose A).cols = A.rows ∧
      ∀ j i, (transpose A).entry j i = A.entry i j) ∧
    ∀ A : Mat ℚ, A.rows = 0 → transposeRun A = none := by
  constructor
  · intro A hA
    refine ⟨?_, rfl, rfl, fun j i => rfl⟩
    simp [transposeRun, Nat.pos_iff_ne_zero.mp hA]
  · intro A hA
    simp [transposeRun, hA]

/-- Witness for C8 (amended) at the concrete 1-by-2 matrix [[1,2]]. -/
theorem transpose_behavior_witness :
    transposeRun (ofRows [[1,2]] : Mat ℚ) = some (transpose (ofRows [[1,2]])) :=
  (transpose_behavior.1 _ (by decide)).1

/- ------------------------------------------------------------------ -/
/- Claim C4.                                                           -/
/- ------------------------------------------------------------------ -/

/-- Claim C4 counterexample: `matmul` performs no dimension check.  With
A = [[1]] (1 by 1) and B = [[2],[3]] (2 by 1) we have A.cols = 1 and
B.rows = 2, yet the multiplication completes without any
DimensionMismatch condition (it silently sums only over k < A.cols). -/
theorem matmul_no_check_cx :
    (matmulRun (ofRows [[1]] : Mat ℚ) (ofRows [[2],[3]])).isSome = true ∧
    (ofRows [[(1 : ℚ)]]).cols ≠ (ofRows [[(2 : ℚ)], [3]]).rows := by
  exact ⟨rfl, by decide⟩

/-- Claim C4 (amended): `matmul` performs no dimension check.  For
nonempty A and B: when A.cols ≤ B.rows it returns, without error, the
A.rows-by-B.cols matrix whose (i,j) entry is the inner-product sum over
k < A.cols (the standard inner-product sum when A.cols = B.rows, where it
also agrees with the `multiply` implementation); when B.rows < A.cols and
B has at least one column, it reads B out of bounds (undefined behavior)
instead of signaling DimensionMismatch. -/
theorem matmul_behavior :
    ∀ A B : Mat ℚ, 0 < A.rows → 0 < B.rows →
      (A.cols ≤ B.rows →
        matmulRun A B = some (matmul A B) ∧
        (matmul A B).rows = A.rows ∧ (matmul A B).cols = B.cols ∧
        ∀ i j, (matmul A B).entry i j
          = ∑ k in Finset.range A.cols, A.entry i k * B.entry k j) ∧
      (A.cols = B.rows → MatExt (matmul A B) (multiply A B)) ∧
      (B.rows < A.cols → 0 < B.cols → matmulRun A B = none) := by
  intro A B hA hB
  refine ⟨fun h => ⟨?_, rfl, rfl, fun i j => rfl⟩, fun h => ?_, fun h1 h2 => ?_⟩
  · have h1 : ¬(A.rows = 0 ∨ B.rows = 0) := by omega
    have h2 : ¬(B.rows < A.cols ∧ 0 < B.cols) := by omega
    simp [matmulRun, h1, h2]
  · refine ⟨rfl, rfl, fun i _ j _ => ?_⟩
    rw [matmul_entry, multiply_entry, h]
  · have h3 : ¬(A.rows = 0 ∨ B.rows = 0) := by omega
    simp [matmulRun, h3, h1, h2]

/-- Witness for C4 (amended) at A = [[1,2]], B = [[3],[4]]. -/
theorem matmul_behavior_witness :
    matmulRun (ofRows [[1,2]] : Mat ℚ) (ofRows [[3],[4]])
      = some (matmul (ofRows [[1,2]]) (ofRows [[3],[4]])) :=
  ((matmul_behavior _ _ (by decide) (by decide)).1 (by decide)).1

/- ------------------------------------------------------------------ -/
/- Gauss-Jordan elimination: entry lemmas.                             -/
/- ------------------------------------------------------------------ -/

lemma eps_pos : (0 : α) < eps := by
  unfold eps
  positivity

lemma augInit_rows (A : Mat α) : (augInit A).rows = A.rows := rfl

lemma augInit_cols (A : Mat α) : (augInit A).cols = 2 * A.rows := rfl

lemma augInit_entry (A : Mat α) (i j : ℕ) :
    (augInit A).entry i j
      = if j < A.rows then A.entry i j else if j = A.rows + i then 1 else 0 := rfl

lemma rowSwap_entry (M : Mat α) (i p r j : ℕ) :
    (rowSwap M i p).entry r j
      = if r = i then M.entry p j else if r = p then M.entry i j else M.entry r j := rfl

lemma rowSwap_entry_perm (M : Mat α) (i p r j : ℕ) :
    (rowSwap M i p).entry r j
      = M.entry (if r = i then p else if r = p then i else r) j := by
  rw [rowSwap_entry]
  by_cases h1 : r = i
  · rw [if_pos h1, if_pos h1]
  · rw [if_neg h1, if_neg h1]
    by_cases h2 : r = p
    · rw [if_pos h2, if_pos h2]
    · rw [if_neg h2, if_neg h2]

lemma rowScale_entry (M : Mat α) (i : ℕ) (d : α) (r j : ℕ) :
    (rowScale M i d).entry r j
      = if r = i then M.entry r j / d else M.entry r j := rfl

lemma elimOther_entry (M : Mat α) (i r j : ℕ) :
    (elimOther M i).entry r j
      = if r = i then M.entry r j
        else M.entry r j - M.entry r i * M.entry i j := rfl

/- ------------------------------------------------------------------ -/
/- Pivot selection: the fold picks a row of maximal magnitude.         -/
/- ------------------------------------------------------------------ -/

lemma pivot_fold_mem (M : Mat α) (i : ℕ) :
    ∀ (l : List ℕ) (p : ℕ),
      List.foldl (fun p r => if |M.entry (i + r) i| > |M.entry p i| then i + r else p) p l = p
      ∨ ∃ r ∈ l,
          List.foldl (fun p r => if |M.entry (i + r) i| > |M.entry p i| then i + r else p) p l
            = i + r := by
  intro l
  induction l with
  | nil => intro p; exact Or.inl rfl
  | cons a t ih =>
    intro p
    by_cases hc : |M.entry (i + a) i| > |M.entry p i|
    · simp only [List.foldl_cons, if_pos hc]
      rcases ih (i + a) with h | ⟨r, hr, h⟩
      · exact Or.inr ⟨a, List.mem_cons_self a t, h⟩
      · exact Or.inr ⟨r, List.mem_cons_of_mem a hr, h⟩
    · simp only [List.foldl_cons, if_neg hc]
      rcases ih p with h | ⟨r, hr, h⟩
      · exact Or.inl h
      · exact Or.inr ⟨r, List.mem_cons_of_mem a hr, h⟩

lemma pivot_fold_max (M : Mat α) (i : ℕ) :
    ∀ (l : List ℕ) (p : ℕ),
      |M.entry p i|
        ≤ |M.entry (List.foldl
            (fun p r => if |M.entry (i + r) i| > |M.entry p i| then i + r else p) p l) i|
      ∧ ∀ r ∈ l, |M.entry (i + r) i|
        ≤ |M.entry (List.foldl
            (fun p r => if |M.entry (i + r) i| > |M.entry p i| then i + r else p) p l) i| := by
  intro l
  induction l with
  | nil =>
    intro p
    exact ⟨le_refl _, by intro r hr; cases hr⟩
  | cons a t ih =>
    intro p
    by_cases hc : |M.entry (i + a) i| > |M.entry p i|
    · simp only [List.foldl_cons, if_pos hc]
      obtain ⟨h1, h2⟩ := ih (i + a)
      refine ⟨le_trans (le_of_lt hc) h1, ?_⟩
      intro r hr
      rcases List.mem_cons.mp hr with h | h
      · rw [h]; exact h1
      · exact h2 r h
    · simp only [List.foldl_cons, if_neg hc]
      obtain ⟨h1, h2⟩ := ih p
      refine ⟨h1, ?_⟩
      intro r hr
      rcases List.mem_cons.mp hr with h | h
      · rw [h]; exact le_trans (not_lt.mp hc) h1
      · exact h2 r h

lemma pivotRow_le_lt (M : Mat α) (i : ℕ) (hi : i < M.rows) :
    i ≤ pivotRow M i ∧ pivotRow M i < M.rows := by
  unfold pivotRow
  rcases pivot_fold_mem M i (List.range (M.rows - i)) i with h | ⟨r, hr, h⟩
  · rw [h]; exact ⟨le_refl i, hi⟩
  · rw [h]
    have := List.mem_range.mp hr
    omega

lemma pivotRow_max (M : Mat α) (i : ℕ) :
    ∀ r, i ≤ r → r < M.rows → |M.entry r i| ≤ |M.entry (pivotRow M i) i| := by
  intro r h1 h2
  have hmem : r - i ∈ List.range (M.rows - i) := List.mem_range.mpr (by omega)
  have h3 := (pivot_fold_max M i (List.range (M.rows - i)) i).2 (r - i) hmem
  have hri : i + (r - i) = r := by omega
  rw [hri] at h3
  exact h3

/- ------------------------------------------------------------------ -/
/- Row operations preserve the elimination invariant.                  -/
/- ------------------------------------------------------------------ -/

lemma gjInit_inv (A : Mat α) : GJInv A (augInit A) := by
  refine ⟨rfl, rfl, ?_⟩
  intro r hr j hj
  rw [augInit_entry, if_pos hj]
  have hR : ∀ k, (augInit A).entry r (A.rows + k) = if k = r then (1 : α) else 0 := by
    intro k
    rw [augInit_entry, if_neg (by omega)]
    simp only [add_right_inj]
  rw [Finset.sum_congr rfl fun k _ => by rw [hR k, ite_mul, one_mul, zero_mul]]
  rw [Finset.sum_ite_eq' (Finset.range A.rows) r fun k => A.entry k j]
  rw [if_pos (Finset.mem_range.mpr hr)]

lemma gjInv_rowSwap (A M : Mat α) (h : GJInv A M) (i p : ℕ)
    (hi : i < A.rows) (hp : p < A.rows) : GJInv A (rowSwap M i p) := by
  obtain ⟨h1, h2, hE⟩ := h
  refine ⟨h1, h2, ?_⟩
  intro r hr j hj
  rw [rowSwap_entry_perm]
  have hσ : (if r = i then p else if r = p then i else r) < A.rows := by
    split_ifs <;> assumption
  rw [hE _ hσ j hj]
  exact Finset.sum_congr rfl fun k _ => by rw [rowSwap_entry_perm]

lemma gjInv_rowScale (A M : Mat α) (h : GJInv A M) (i : ℕ) (d : α) :
    GJInv A (rowScale M i d) := by
  obtain ⟨h1, h2, hE⟩ := h
  refine ⟨h1, h2, ?_⟩
  intro r hr j hj
  by_cases hri : r = i
  · rw [rowScale_entry, if_pos hri, hE r hr j hj, Finset.sum_div]
    exact Finset.sum_congr rfl fun k _ => by
      rw [rowScale_entry, if_pos hri, div_mul_eq_mul_div]
  · rw [rowScale_entry, if_neg hri, hE r hr j hj]
    exact Finset.sum_congr rfl fun k _ => by rw [rowScale_entry, if_neg hri]

lemma gjInv_elim (A M : Mat α) (h : GJInv A M) (i : ℕ) (hi : i < A.rows) :
    GJInv A (elimOther M i) := by
  obtain ⟨h1, h2, hE⟩ := h
  refine ⟨h1, h2, ?_⟩
  intro r hr j hj
  by_cases hri : r = i
  · rw [elimOther_entry, if_pos hri, hE r hr j hj]
    exact Finset.sum_congr rfl fun k _ => by rw [elimOther_entry, if_pos hri]
  · rw [elimOther_entry, if_neg hri]
    have hR : ∑ k in Finset.range A.rows, (elimOther M i).entry r (A.rows + k) * A.entry k j
        = ∑ k in Finset.range A.rows,
            (M.entry r (A.rows + k) * A.entry k j
              - M.entry r i * (M.entry i (A.rows + k) * A.entry k j)) := by
      refine Finset.sum_congr rfl fun k _ => ?_
      rw [elimOther_entry, if_neg hri]
      ring
    rw [hR, Finset.sum_sub_distrib, ← Finset.mul_sum,
      ← hE r hr j hj, ← hE i hi j hj]

/- ------------------------------------------------------------------ -/
/- One pivot step: characterization and invariant preservation.        -/
/- ------------------------------------------------------------------ -/

lemma gjStep_ok_chars (M : Mat α) (i : ℕ) (M2 : Mat α) (h : gjStep M i = .ok M2) :
    ¬ |M.entry (pivotRow M i) i| < eps ∧
    M2 = elimOther (rowScale (rowSwap M i (pivotRow M i)) i
      ((rowSwap M i (pivotRow M i)).entry i i)) i := by
  simp only [gjStep] at h
  by_cases hc : |M.entry (pivotRow M i) i| < eps
  · rw [if_pos hc] at h
    cases h
  · rw [if_neg hc] at h
    cases h
    exact ⟨hc, rfl⟩

lemma gjStep_err_chars (M : Mat α) (i : ℕ) (e : LinError) (h : gjStep M i = .error e) :
    e = .SingularMatrix ∧ |M.entry (pivotRow M i) i| < eps := by
  simp only [gjStep] at h
  by_cases hc : |M.entry (pivotRow M i) i| < eps
  · rw [if_pos hc] at h
    cases h
    exact ⟨rfl, hc⟩
  · rw [if_neg hc] at h
    cases h

lemma gjStep_of_small (M : Mat α) (i : ℕ) (h : |M.entry (pivotRow M i) i| < eps) :
    gjStep M i = .error .SingularMatrix := by
  simp only [gjStep]
  rw [if_pos h]

lemma gjStep_preserves (A N : Mat α) (k : ℕ) (hk : k < A.rows)
    (hInv : GJInv A N) (hCols : GJCols A N k) (M2 : Mat α)
    (hstep : gjStep N k = .ok M2) :
    GJInv A M2 ∧ GJCols A M2 (k + 1) := by
  obtain ⟨hok, rfl⟩ := gjStep_ok_chars N k M2 hstep
  have hkN : k < N.rows := by rw [hInv.1]; exact hk
  obtain ⟨hkp, hpn⟩ := pivotRow_le_lt N k hkN
  have hpA : pivotRow N k < A.rows := by rw [← hInv.1]; exact hpn
  have hd0 : N.entry (pivotRow N k) k ≠ 0 := by
    intro h0
    exact hok (by rw [h0, abs_zero]; exact eps_pos)
  have hd : (rowSwap N k (pivotRow N k)).entry k k = N.entry (pivotRow N k) k := by
    rw [rowSwap_entry, if_pos rfl]
  have hCols1 : GJCols A (rowSwap N k (pivotRow N k)) k := by
    intro j hj r hr
    rw [rowSwap_entry_perm]
    by_cases h1 : r = k
    · rw [if_pos h1, hCols j hj _ hpA, if_neg (by omega), if_neg (by omega)]
    · rw [if_neg h1]
      by_cases h2 : r = pivotRow N k
      · rw [if_pos h2, hCols j hj _ hk, if_neg (by omega), if_neg (by omega)]
      · rw [if_neg h2, hCols j hj _ hr]
  have hColsS : GJCols A (rowScale (rowSwap N k (pivotRow N k)) k
      ((rowSwap N k (pivotRow N k)).entry k k)) k := by
    intro j hj r hr
    by_cases hrk : r = k
    · rw [rowScale_entry, if_pos hrk, hCols1 j hj r hr, hrk, if_neg (by omega), zero_div]
    · rw [rowScale_entry, if_neg hrk, hCols1 j hj r hr]
  have hSkk : (rowScale (rowSwap N k (pivotRow N k)) k
      ((rowSwap N k (pivotRow N k)).entry k k)).entry k k = 1 := by
    rw [rowScale_entry, if_pos rfl, hd]
    exact div_self hd0
  constructor
  · exact gjInv_elim A _
      (gjInv_rowScale A _ (gjInv_rowSwap A N ⟨hInv.1, hInv.2.1, hInv.2.2⟩ k _ hk hpA) k _) k hk
  · intro j hj r hr
    rcases Nat.lt_succ_iff_lt_or_eq.mp hj with hjk | rfl
    · by_cases hrk : r = k
      · rw [elimOther_entry, if_pos hrk, hColsS j hjk r hr]
      · rw [elimOther_entry, if_neg hrk, hColsS j hjk r hr, hColsS j hjk k hk,
          if_neg (show ¬(k = j) by omega), mul_zero, sub_zero]
    · by_cases hrk : r = j
      · rw [elimOther_entry, if_pos hrk, hrk, hSkk, if_pos rfl]
      · rw [elimOther_entry, if_neg hrk, hSkk, mul_one, sub_self, if_neg hrk]

/- ------------------------------------------------------------------ -/
/- The elimination loop.                                               -/
/- ------------------------------------------------------------------ -/

lemma gjRun_succ (A : Mat α) (k : ℕ) :
    gjRun A (k + 1) = (gjRun A k).bind fun M => gjStep M k := rfl

lemma gjRun_err_kind (A : Mat α) :
    ∀ k e, gjRun A k = .error e → e = .SingularMatrix := by
  intro k
  induction k with
  | zero =>
    intro e h
    cases h
  | succ k ih =>
    intro e h
    rw [gjRun_succ] at h
    cases hk : gjRun A k with
    | error e2 =>
      rw [hk] at h
      have h2 : (Except.error e2 : Except LinError (Mat α)) = .error e := h
      cases h2
      exact ih e hk
    | ok N =>
      rw [hk] at h
      exact (gjStep_err_chars N k e h).1

lemma gjRun_err_iff (A : Mat α) :
    ∀ t, gjRun A t = .error .SingularMatrix ↔
      ∃ k < t, ∃ M, gjRun A k = .ok M ∧ |M.entry (pivotRow M k) k| < eps := by
  intro t
  induction t with
  | zero =>
    constructor
    · intro h; cases h
    · rintro ⟨k, hk, -⟩; omega
  | succ t ih =>
    constructor
    · intro h
      rw [gjRun_succ] at h
      cases ht : gjRun A t with
      | error e =>
        have he := gjRun_err_kind A t e ht
        subst he
        obtain ⟨k, hk, M, h1, h2⟩ := ih.mp ht
        exact ⟨k, by omega, M, h1, h2⟩
      | ok N =>
        rw [ht] at h
        have h2 : gjStep N t = .error .SingularMatrix := h
        exact ⟨t, by omega, N, ht, (gjStep_err_chars N t _ h2).2⟩
    · rintro ⟨k, hk, M, h1, h2⟩
      rw [gjRun_succ]
      rcases Nat.lt_succ_iff_lt_or_eq.mp hk with hk2 | rfl
      · rw [ih.mpr ⟨k, hk2, M, h1, h2⟩]
        rfl
      · rw [h1]
        exact gjStep_of_small M k h2

lemma gjRun_invariants (A : Mat α) :
    ∀ k, k ≤ A.rows → ∀ M, gjRun A k = .ok M → GJInv A M ∧ GJCols A M k := by
  intro k
  induction k with
  | zero =>
    intro _ M h
    cases h
    exact ⟨gjInit_inv A, fun j hj => absurd hj (Nat.not_lt_zero j)⟩
  | succ k ih =>
    intro hle M2 h
    rw [gjRun_succ] at h
    cases hk : gjRun A k with
    | error e =>
      rw [hk] at h
      have h2 : (Except.error e : Except LinError (Mat α)) = .ok M2 := h
      cases h2
    | ok N =>
      rw [hk] at h
      have hstep : gjStep N k = .ok M2 := h
      obtain ⟨hInv, hCols⟩ := ih (by omega) N hk
      exact gjStep_preserves A N k (by omega) hInv hCols M2 hstep

/- ------------------------------------------------------------------ -/
/- The `inverse` entry point.                                          -/
/- ------------------------------------------------------------------ -/

lemma inverse_nonsquare (A : Mat α) (h : A.rows = 0 ∨ A.cols ≠ A.rows) :
    inverse A = .error .NonSquareMatrix := by
  unfold inverse
  rw [if_pos h]

lemma inverse_ok_elim (A B : Mat α) (h : inverse A = .ok B) :
    A.cols = A.rows ∧ 0 < A.rows ∧ B.rows = A.rows ∧ B.cols = A.rows ∧
    ∃ M, gjRun A A.rows = .ok M ∧ ∀ i j, B.entry i j = M.entry i (A.rows + j) := by
  unfold inverse at h
  by_cases hc : A.rows = 0 ∨ A.cols ≠ A.rows
  · rw [if_pos hc] at h
    cases h
  · rw [if_neg hc] at h
    push_neg at hc
    obtain ⟨h1, h2⟩ := hc
    cases hg : gjRun A A.rows with
    | error e =>
      rw [hg] at h
      have h3 : (Except.error e : Except LinError (Mat α)) = .ok B := h
      cases h3
    | ok M =>
      rw [hg] at h
      have h3 : Except.ok (⟨A.rows, A.rows, fun i j => M.entry i (A.rows + j)⟩ : Mat α)
          = Except.ok B := h
      cases h3
      exact ⟨h2, Nat.pos_of_ne_zero h1, rfl, rfl, ⟨M, rfl, fun i j => rfl⟩⟩

lemma inverse_err_iff (A : Mat α) (h1 : 0 < A.rows) (h2 : A.cols = A.rows) (e : LinError) :
    inverse A = .error e ↔ gjRun A A.rows = .error e := by
  unfold inverse
  rw [if_neg (by omega)]
  cases hg : gjRun A A.rows with
  | error e2 =>
    constructor
    · intro h
      have h3 : (Except.error e2 : Except LinError (Mat α)) = .error e := h
      cases h3
      rfl
    · intro h
      cases h
      rfl
  | ok M =>
    constructor
    · intro h
      have h3 : Except.ok (⟨A.rows, A.rows, fun i j => M.entry i (A.rows + j)⟩ : Mat α)
          = Except.error e := h
      cases h3
    · intro h
      cases h

/-- Shared core result: a successful `inverse` produces an exact left
inverse (B times A is extensionally the identity). -/
lemma gj_left_inverse (A B : Mat α) (h : inverse A = .ok B) :
    MatExt (matmul B A) (identity A.rows) := by
  obtain ⟨hsq, hpos, hBr, hBc, M, hg, hBE⟩ := inverse_ok_elim A B h
  obtain ⟨hInv, hCols⟩ := gjRun_invariants A A.rows (le_refl _) M hg
  refine ⟨by rw [matmul_rows, hBr, identity_rows], by rw [matmul_cols, hsq, identity_cols], ?_⟩
  intro i hi j hj
  have hiA : i < A.rows := by rw [← hBr]; exact hi
  have hjA : j < A.rows := by rw [← hsq]; exact hj
  rw [matmul_entry, identity_entry, hBc]
  rw [Finset.sum_congr rfl fun k _ => by rw [hBE i k]]
  rw [← hInv.2.2 i hiA j hjA]
  exact hCols j hjA i hiA

/- ------------------------------------------------------------------ -/
/- Concrete Gauss-Jordan runs.                                         -/
/- ------------------------------------------------------------------ -/

unseal Rat.mul Rat.inv Rat.add Rat.sub in
lemma inverse_sing_2x2 :
    inverse (ofRows [[1,2],[2,4]] : Mat ℚ) = .error .SingularMatrix := by
  rfl

unseal Rat.mul Rat.inv Rat.add Rat.sub in
lemma inverse_ex46 :
    resErr (inverse (ofRows [[4,7],[2,6]] : Mat ℚ)) = none ∧
    resEntry (inverse (ofRows [[4,7],[2,6]] : Mat ℚ)) 0 0 = 3/5 ∧
    resEntry (inverse (ofRows [[4,7],[2,6]] : Mat ℚ)) 0 1 = -7/10 ∧
    resEntry (inverse (ofRows [[4,7],[2,6]] : Mat ℚ)) 1 0 = -1/5 ∧
    resEntry (inverse (ofRows [[4,7],[2,6]] : Mat ℚ)) 1 1 = 2/5 := by
  refine ⟨?_, ?_, ?_, ?_, ?_⟩ <;> decide

/- ------------------------------------------------------------------ -/
/- Claim C2.                                                           -/
/- ------------------------------------------------------------------ -/

/-- Claim C2: `inverse` fails with NonSquareMatrix on every non-square
input; the selected pivot at step k is the largest-magnitude entry of
column k among rows k..n-1; `inverse` fails with SingularMatrix exactly
when some elimination step selects a pivot of magnitude below 1e-12; and
concretely inverse([[1,2],[2,4]]) fails with SingularMatrix. -/
theorem inverse_error_conditions :
    (∀ A : Mat ℚ, A.cols ≠ A.rows → inverse A = .error .NonSquareMatrix) ∧
    (∀ (M : Mat ℚ) (k : ℕ), k < M.rows →
      k ≤ pivotRow M k ∧ pivotRow M k < M.rows ∧
      ∀ r, k ≤ r → r < M.rows → |M.entry r k| ≤ |M.entry (pivotRow M k) k|) ∧
    (∀ A : Mat ℚ, 0 < A.rows → A.cols = A.rows →
      (inverse A = .error .SingularMatrix ↔
        ∃ k < A.rows, ∃ M, gjRun A k = .ok M ∧ |M.entry (pivotRow M k) k| < eps)) ∧
    inverse (ofRows [[1,2],[2,4]] : Mat ℚ) = .error .SingularMatrix := by
  refine ⟨?_, ?_, ?_, inverse_sing_2x2⟩
  · intro A h
    exact inverse_nonsquare A (Or.inr h)
  · intro M k hk
    obtain ⟨h1, h2⟩ := pivotRow_le_lt M k hk
    exact ⟨h1, h2, pivotRow_max M k⟩
  · intro A h1 h2
    rw [inverse_err_iff A h1 h2, gjRun_err_iff A A.rows]

/-- Witness for C2 at the non-square 1-by-2 matrix [[1,2]]. -/
theorem inverse_error_conditions_witness :
    inverse (ofRows [[1,2]] : Mat ℚ) = .error .NonSquareMatrix :=
  inverse_error_conditions.1 _ (by decide)

/- ------------------------------------------------------------------ -/
/- Claim C3.                                                           -/
/- ------------------------------------------------------------------ -/

/-- Claim C3: whenever `inverse(A)` succeeds, the result is an exact left
inverse over exact arithmetic — matmul(inverse(A), A) is extensionally
the identity (which is stronger than the claimed 1e-6 closeness); and
concretely inverse([[4,7],[2,6]]) equals [[0.6,-0.7],[-0.2,0.4]]
exactly. -/
theorem inverse_left_identity :
    (∀ A B : Mat ℚ, inverse A = .ok B → MatExt (matmul B A) (identity A.rows)) ∧
    (resErr (inverse (ofRows [[4,7],[2,6]] : Mat ℚ)) = none ∧
     resEntry (inverse (ofRows [[4,7],[2,6]] : Mat ℚ)) 0 0 = 3/5 ∧
     resEntry (inverse (ofRows [[4,7],[2,6]] : Mat ℚ)) 0 1 = -7/10 ∧
     resEntry (inverse (ofRows [[4,7],[2,6]] : Mat ℚ)) 1 0 = -1/5 ∧
     resEntry (inverse (ofRows [[4,7],[2,6]] : Mat ℚ)) 1 1 = 2/5) :=
  ⟨fun A B h => gj_left_inverse A B h, inverse_ex46⟩

unseal Rat.mul Rat.inv Rat.add Rat.sub in
/-- Witness for C3: the general left-inverse statement applied to the
concrete matrix [[4,7],[2,6]]. -/
theorem inverse_left_identity_witness :
    MatExt (matmul (resMat (inverse (ofRows [[4,7],[2,6]] : Mat ℚ))) (ofRows [[4,7],[2,6]]))
      (identity (ofRows [[4,7],[2,6]] : Mat ℚ).rows) :=
  inverse_left_identity.1 _ _ rfl

/- ------------------------------------------------------------------ -/
/- Back-substitution: the solver loop.                                 -/
/- ------------------------------------------------------------------ -/

lemma except_bind_ok {β γ : Type} (x : β) (f : β → Except LinError γ) :
    (Except.ok x : Except LinError β).bind f = f x := rfl

lemma except_bind_error {β γ : Type} (e : LinError) (f : β → Except LinError γ) :
    (Except.error e : Except LinError β).bind f = (Except.error e : Except LinError γ) := rfl

lemma backSub_succ (R : Mat α) (y : ℕ → α) (n t : ℕ) :
    backSub R y n (t + 1) = (backSub R y n t).bind fun x =>
      if |R.entry (n - 1 - t) (n - 1 - t)| < eps then .error .SingularSystem
      else .ok (Function.update x (n - 1 - t)
        ((y (n - 1 - t)
            - ∑ j in Finset.Ico (n - 1 - t + 1) n, R.entry (n - 1 - t) j * x j)
          / R.entry (n - 1 - t) (n - 1 - t))) := rfl

lemma backSub_err_kind (R : Mat α) (y : ℕ → α) (n : ℕ) :
    ∀ t e, backSub R y n t = .error e → e = .SingularSystem := by
  intro t
  induction t with
  | zero =>
    intro e h
    cases h
  | succ t ih =>
    intro e h
    rw [backSub_succ] at h
    cases ht : backSub R y n t with
    | error e2 =>
      rw [ht] at h
      have h2 : (Except.error e2 : Except LinError (ℕ → α)) = .error e := h
      cases h2
      exact ih e ht
    | ok x =>
      rw [ht, except_bind_ok] at h
      by_cases hc : |R.entry (n - 1 - t) (n - 1 - t)| < eps
      · rw [if_pos hc] at h
        cases h
        rfl
      · rw [if_neg hc] at h
        cases h

lemma backSub_ok_iff (R : Mat α) (y : ℕ → α) (n : ℕ) :
    ∀ t, (∃ x, backSub R y n t = .ok x)
      ↔ ∀ s < t, ¬ |R.entry (n - 1 - s) (n - 1 - s)| < eps := by
  intro t
  induction t with
  | zero =>
    exact ⟨fun _ s hs => absurd hs (Nat.not_lt_zero s), fun _ => ⟨_, rfl⟩⟩
  | succ t ih =>
    constructor
    · rintro ⟨x, h⟩
      rw [backSub_succ] at h
      cases ht : backSub R y n t with
      | error e2 =>
        rw [ht] at h
        have h2 : (Except.error e2 : Except LinError (ℕ → α)) = .ok x := h
        cases h2
      | ok x1 =>
        rw [ht, except_bind_ok] at h
        by_cases hc : |R.entry (n - 1 - t) (n - 1 - t)| < eps
        · rw [if_pos hc] at h
          cases h
        · intro s hs
          rcases Nat.lt_succ_iff_lt_or_eq.mp hs with hs2 | rfl
          · exact ih.mp ⟨x1, ht⟩ s hs2
          · exact hc
    · intro hAll
      obtain ⟨x1, ht⟩ := ih.mpr fun s hs => hAll s (by omega)
      refine ⟨Function.update x1 (n - 1 - t)
        ((y (n - 1 - t)
            - ∑ j in Finset.Ico (n - 1 - t + 1) n, R.entry (n - 1 - t) j * x1 j)
          / R.entry (n - 1 - t) (n - 1 - t)), ?_⟩
      rw [backSub_succ, ht, except_bind_ok, if_neg (hAll t (by omega))]

lemma backSub_ok_spec (R : Mat α) (y : ℕ → α) (n : ℕ) :
    ∀ t, t ≤ n → ∀ x, backSub R y n t = .ok x →
      (∀ i, i < n - t → x i = 0) ∧ (∀ i, n ≤ i → x i = 0) ∧
      (∀ i, n - t ≤ i → i < n →
        x i = (y i - ∑ j in Finset.Ico (i + 1) n, R.entry i j * x j) / R.entry i i) := by
  intro t
  induction t with
  | zero =>
    intro _ x h
    cases h
    exact ⟨fun i _ => rfl, fun i _ => rfl, fun i h1 h2 => absurd h2 (by omega)⟩
  | succ t ih =>
    intro hle x h
    rw [backSub_succ] at h
    cases ht : backSub R y n t with
    | error e2 =>
      rw [ht] at h
      have h2 : (Except.error e2 : Except LinError (ℕ → α)) = .ok x := h
      cases h2
    | ok x1 =>
      rw [ht, except_bind_ok] at h
      by_cases hc : |R.entry (n - 1 - t) (n - 1 - t)| < eps
      · rw [if_pos hc] at h
        cases h
      · rw [if_neg hc] at h
        cases h
        obtain ⟨hz, hge, hrec⟩ := ih (by omega) x1 ht
        refine ⟨?_, ?_, ?_⟩
        · intro i hi
          rw [Function.update_noteq (by omega)]
          exact hz i (by omega)
        · intro i hi
          rw [Function.update_noteq (by omega)]
          exact hge i hi
        · intro i h1 h2
          by_cases hit : i = n - 1 - t
          · subst hit
            rw [Function.update_same]
            congr 1
            congr 1
            refine Finset.sum_congr rfl fun j hj => ?_
            have hjm := Finset.mem_Ico.mp hj
            rw [Function.update_noteq (by omega)]
          · rw [Function.update_noteq hit]
            rw [hrec i (by omega) h2]
            congr 1
            congr 1
            refine Finset.sum_congr rfl fun j hj => ?_
            have hjm := Finset.mem_Ico.mp hj
            rw [Function.update_noteq (by omega)]

/- ------------------------------------------------------------------ -/
/- The `solve_qr` entry point.                                         -/
/- ------------------------------------------------------------------ -/

lemma solve_qr_dim_err (Q R : Mat α) (b : List α) (h : b.length ≠ Q.rows) :
    solve_qr Q R b = .error .DimensionMismatch := by
  unfold solve_qr
  rw [if_pos h]

lemma solve_qr_err_iff (Q R : Mat α) (b : List α) (h : b.length = Q.rows) (e : LinError) :
    solve_qr Q R b = .error e
      ↔ backSub R (qtb Q b) R.cols R.cols = .error e := by
  unfold solve_qr
  rw [if_neg (by simp [h])]
  cases hb : backSub R (qtb Q b) R.cols R.cols with
  | error e2 =>
    constructor
    · intro h2
      have h3 : (Except.error e2 : Except LinError (List α)) = .error e := h2
      cases h3
      rfl
    · intro h2
      cases h2
      rfl
  | ok x =>
    constructor
    · intro h2
      have h3 : Except.ok ((List.range R.cols).map x) = Except.error e := h2
      cases h3
    · intro h2
      cases h2

lemma getD_map_range (n : ℕ) (x : ℕ → α) (i : ℕ) (hi : i < n) :
    ((List.range n).map x).getD i 0 = x i := by
  rw [List.getD_eq_getElem?_getD, List.getElem?_map, List.getElem?_range hi]
  rfl

/- ------------------------------------------------------------------ -/
/- Claim C5.                                                           -/
/- ------------------------------------------------------------------ -/

/-- Claim C5: for Q (m by m), R (m by n) with m at least n, `solve_qr`
fails with DimensionMismatch iff the right-hand side has length other
than m; otherwise it computes y = Q transpose times b and fails with
SingularSystem exactly when some diagonal entry R[i][i] with i < n has
magnitude below 1e-12, and otherwise returns the length-n vector x
satisfying the back-substitution recurrence
x[i] = (y[i] - sum of R[i][j] x[j] for j > i) / R[i][i]. -/
theorem solve_qr_spec :
    ∀ (Q R : Mat ℚ) (m n : ℕ), Q.rows = m → Q.cols = m → R.rows = m → R.cols = n →
      n ≤ m → 0 < m →
      ∀ b : List ℚ,
        ((solve_qr Q R b = .error .DimensionMismatch) ↔ b.length ≠ m) ∧
        (∀ i, qtb Q b i = ∑ j in Finset.range m, Q.entry j i * b.getD j 0) ∧
        (b.length = m →
          ((solve_qr Q R b = .error .SingularSystem) ↔ ∃ i < n, |R.entry i i| < eps) ∧
          ((∀ i < n, ¬ |R.entry i i| < eps) → ∃ xs,
            solve_qr Q R b = .ok xs ∧ xs.length = n ∧
            ∀ i < n, xs.getD i 0
              = (qtb Q b i - ∑ j in Finset.Ico (i + 1) n, R.entry i j * xs.getD j 0)
                / R.entry i i)) := by
  intro Q R m n hQr hQc hRr hRc hnm hm b
  subst hQr
  subst hRc
  refine ⟨?_, fun i => rfl, fun hb => ⟨?_, ?_⟩⟩
  · constructor
    · intro h
      intro hlen
      rw [solve_qr_err_iff Q R b hlen .DimensionMismatch] at h
      cases backSub_err_kind R (qtb Q b) R.cols R.cols .DimensionMismatch h
    · exact solve_qr_dim_err Q R b
  · rw [solve_qr_err_iff Q R b hb .SingularSystem]
    constructor
    · intro h
      by_contra hno
      push_neg at hno
      have hall : ∀ s < R.cols, ¬ |R.entry (R.cols - 1 - s) (R.cols - 1 - s)| < eps := by
        intro s hs
        exact not_lt.mpr (hno (R.cols - 1 - s) (by omega))
      obtain ⟨x, hx⟩ := (backSub_ok_iff R (qtb Q b) R.cols R.cols).mpr hall
      rw [hx] at h
      cases h
    · rintro ⟨i, hi, hsmall⟩
      cases hb2 : backSub R (qtb Q b) R.cols R.cols with
      | error e =>
        rw [backSub_err_kind R (qtb Q b) R.cols R.cols e hb2]
      | ok x =>
        exfalso
        have hall := (backSub_ok_iff R (qtb Q b) R.cols R.cols).mp ⟨x, hb2⟩
        exact hall (R.cols - 1 - i) (by omega) (by rw [show R.cols - 1 - (R.cols - 1 - i) = i by omega]; exact hsmall)
  · intro hno
    have hall : ∀ s < R.cols, ¬ |R.entry (R.cols - 1 - s) (R.cols - 1 - s)| < eps :=
      fun s hs => hno (R.cols - 1 - s) (by omega)
    obtain ⟨x, hx⟩ := (backSub_ok_iff R (qtb Q b) R.cols R.cols).mpr hall
    obtain ⟨hz, hge, hrec⟩ := backSub_ok_spec R (qtb Q b) R.cols R.cols (le_refl _) x hx
    refine ⟨(List.range R.cols).map x, ?_, by simp, ?_⟩
    · unfold solve_qr
      rw [if_neg (by simp [hb]), hx]
      rfl
    · intro i hi
      rw [getD_map_range R.cols x i hi]
      rw [hrec i (by omega) hi]
      congr 1
      congr 1
      refine Finset.sum_congr rfl fun j hj => ?_
      have hjm := Finset.mem_Ico.mp hj
      rw [getD_map_range R.cols x j hjm.2]

/-- Witness for C5: a right-hand side of the wrong length is rejected
with DimensionMismatch. -/
theorem solve_qr_spec_witness :
    solve_qr (ofRows [[1,0],[0,1]] : Mat ℚ) (ofRows [[2,1],[0,3]]) [1]
      = .error .DimensionMismatch :=
  ((solve_qr_spec _ _ 2 2 rfl rfl rfl rfl (by decide) (by decide) [1]).1).mpr (by decide)

/- ------------------------------------------------------------------ -/
/- The `pseudoinverse` entry point.                                    -/
/- ------------------------------------------------------------------ -/

lemma inverse_err_kind (A : Mat α) (h1 : 0 < A.rows) (h2 : A.cols = A.rows)
    (e : LinError) (h : inverse A = .error e) : e = .SingularMatrix := by
  rw [inverse_err_iff A h1 h2] at h
  exact gjRun_err_kind A A.rows e h

lemma pseudoinverse_empty_case (A : Mat α) (h : A.rows = 0 ∨ A.cols = 0) :
    pseudoinverse A = .ok emptyMat := by
  unfold pseudoinverse
  rw [if_pos h]

lemma pseudoinverse_tall (A : Mat α) (h1 : 0 < A.rows) (h2 : 0 < A.cols)
    (h3 : A.cols ≤ A.rows) :
    pseudoinverse A
      = (inverse (multiply (transpose A) A)).map fun M => multiply M (transpose A) := by
  unfold pseudoinverse
  rw [if_neg (by omega), if_pos h3]

lemma pseudoinverse_wide (A : Mat α) (h1 : 0 < A.rows) (h2 : A.rows < A.cols) :
    pseudoinverse A
      = (inverse (multiply A (transpose A))).map fun M => multiply (transpose A) M := by
  unfold pseudoinverse
  rw [if_neg (by omega), if_neg (by omega)]

/- ------------------------------------------------------------------ -/
/- Claim C6.                                                           -/
/- ------------------------------------------------------------------ -/

/-- Claim C6: `pseudoinverse` returns an empty matrix without error on
zero-row or zero-column input; on nonempty input with rows at least cols
it computes (Aᵗ A)⁻¹ Aᵗ, and with rows below cols it computes
Aᵗ (A Aᵗ)⁻¹, in both cases delegating to the Gauss-Jordan `inverse` and
propagating exactly a SingularMatrix failure when that inversion
fails. -/
theorem pseudoinverse_spec :
    (∀ A : Mat ℚ, A.rows = 0 ∨ A.cols = 0 → pseudoinverse A = .ok emptyMat) ∧
    (∀ A : Mat ℚ, 0 < A.rows → 0 < A.cols → A.cols ≤ A.rows →
      (∀ M, inverse (multiply (transpose A) A) = .ok M →
        pseudoinverse A = .ok (multiply M (transpose A))) ∧
      (∀ e, inverse (multiply (transpose A) A) = .error e →
        e = .SingularMatrix ∧ pseudoinverse A = .error .SingularMatrix)) ∧
    (∀ A : Mat ℚ, 0 < A.rows → A.rows < A.cols →
      (∀ M, inverse (multiply A (transpose A)) = .ok M →
        pseudoinverse A = .ok (multiply (transpose A) M)) ∧
      (∀ e, inverse (multiply A (transpose A)) = .error e →
        e = .SingularMatrix ∧ pseudoinverse A = .error .SingularMatrix)) := by
  refine ⟨fun A h => pseudoinverse_empty_case A h, fun A h1 h2 h3 => ⟨?_, ?_⟩,
    fun A h1 h2 => ⟨?_, ?_⟩⟩
  · intro M hM
    rw [pseudoinverse_tall A h1 h2 h3, hM]
    rfl
  · intro e he
    have hek : e = .SingularMatrix :=
      inverse_err_kind (multiply (transpose A) A) h2 rfl e he
    subst hek
    refine ⟨rfl, ?_⟩
    rw [pseudoinverse_tall A h1 h2 h3, he]
    rfl
  · intro M hM
    rw [pseudoinverse_wide A h1 h2, hM]
    rfl
  · intro e he
    have hek : e = .SingularMatrix :=
      inverse_err_kind (multiply A (transpose A)) h1 rfl e he
    subst hek
    refine ⟨rfl, ?_⟩
    rw [pseudoinverse_wide A h1 h2, he]
    rfl

/-- Witness for C6: the empty matrix maps to the empty matrix with no
error. -/
theorem pseudoinverse_spec_witness :
    pseudoinverse (ofRows ([] : List (List ℚ))) = .ok emptyMat :=
  pseudoinverse_spec.1 _ (Or.inl rfl)

/- ------------------------------------------------------------------ -/
/- Bridge to Mathlib square matrices.                                  -/
/- ------------------------------------------------------------------ -/

lemma toMx_apply (n : ℕ) (A : Mat α) (i j : Fin n) :
    toMx n A i j = A.entry i j := rfl

lemma toMx_matmul (n : ℕ) (P Q : Mat α) (hP : P.cols = n) (i j : Fin n) :
    (toMx n P * toMx n Q) i j = (matmul P Q).entry i j := by
  rw [Matrix.mul_apply, matmul_entry, hP]
  exact Fin.sum_univ_eq_sum_range (fun k => P.entry i k * Q.entry k j) n

lemma matext_mul_one (n : ℕ) (B A : Mat α) (hBr : B.rows = n) (hBc : B.cols = n)
    (hAc : A.cols = n) (hExt : MatExt (matmul B A) (identity n)) :
    toMx n B * toMx n A = 1 := by
  ext i j
  rw [toMx_matmul n B A hBc i j]
  have hi : (i : ℕ) < (matmul B A).rows := by rw [matmul_rows, hBr]; exact i.isLt
  have hj : (j : ℕ) < (matmul B A).cols := by rw [matmul_cols, hAc]; exact j.isLt
  rw [hExt.2.2 i hi j hj, identity_entry, Matrix.one_apply]
  exact if_congr (Fin.val_eq_val i j) rfl rfl

lemma toMx_normal (n : ℕ) (A : Mat α) (hAr : A.rows = n) :
    toMx n (multiply (transpose A) A) = (Matrix.transpose (toMx n A)) * toMx n A := by
  ext i j
  rw [Matrix.mul_apply, toMx_apply]
  rw [show (multiply (transpose A) A).entry i j
      = ∑ k in Finset.range A.rows, A.entry k i * A.entry k j from rfl]
  rw [hAr]
  exact (Fin.sum_univ_eq_sum_range (fun k => A.entry k i * A.entry k j) n).symm

lemma toMx_mul_transpose (n : ℕ) (M A : Mat α) (hAc : A.cols = n) (i j : Fin n) :
    (toMx n M * (Matrix.transpose (toMx n A))) i j = (multiply M (transpose A)).entry i j := by
  rw [Matrix.mul_apply]
  rw [show (multiply M (transpose A)).entry i j
      = ∑ k in Finset.range A.cols, M.entry i k * A.entry j k from rfl]
  rw [hAc]
  exact Fin.sum_univ_eq_sum_range (fun k => M.entry i k * A.entry j k) n

/-- Shared core result for the pseudoinverse of an invertible square
matrix: when both `inverse A` and the inner inversion of Aᵗ A succeed,
the pseudoinverse result M Aᵗ is exactly the Gauss-Jordan inverse B. -/
lemma pinv_agrees_inverse (A B M : Mat α) (hB : inverse A = .ok B)
    (hM : inverse (multiply (transpose A) A) = .ok M) :
    pseudoinverse A = .ok (multiply M (transpose A)) ∧
    MatExt (multiply M (transpose A)) B := by
  obtain ⟨hsq, hpos, hBr, hBc, -⟩ := inverse_ok_elim A B hB
  obtain ⟨-, -, hMr, hMc, -⟩ := inverse_ok_elim _ M hM
  have hAc : A.cols = A.rows := hsq
  have hMr2 : M.rows = A.rows := by rw [hMr]; exact hAc
  have hMc2 : M.cols = A.rows := by rw [hMc]; exact hAc
  have hbr : pseudoinverse A = .ok (multiply M (transpose A)) := by
    rw [pseudoinverse_tall A hpos (by omega) (by omega), hM]
    rfl
  refine ⟨hbr, ?_⟩
  have h1 : toMx A.rows B * toMx A.rows A = 1 :=
    matext_mul_one A.rows B A hBr hBc hAc (gj_left_inverse A B hB)
  have h2x := gj_left_inverse _ M hM
  rw [show (multiply (transpose A) A).rows = A.cols from rfl, hAc] at h2x
  have h2 : toMx A.rows M * toMx A.rows (multiply (transpose A) A) = 1 :=
    matext_mul_one A.rows M _ hMr2 hMc2 hAc h2x
  have hN : toMx A.rows (multiply (transpose A) A)
      = Matrix.transpose (toMx A.rows A) * toMx A.rows A :=
    toMx_normal A.rows A rfl
  have h3 : toMx A.rows A * toMx A.rows B = 1 := Matrix.mul_eq_one_comm.mpr h1
  have hfin : toMx A.rows M * Matrix.transpose (toMx A.rows A) = toMx A.rows B := by
    calc toMx A.rows M * Matrix.transpose (toMx A.rows A)
        = toMx A.rows M * Matrix.transpose (toMx A.rows A)
            * (toMx A.rows A * toMx A.rows B) := by
          rw [h3, Matrix.mul_one]
      _ = toMx A.rows M * (Matrix.transpose (toMx A.rows A) * toMx A.rows A)
            * toMx A.rows B := by
          simp only [Matrix.mul_assoc]
      _ = toMx A.rows M * toMx A.rows (multiply (transpose A) A) * toMx A.rows B := by
          rw [hN]
      _ = toMx A.rows B := by
          rw [h2, Matrix.one_mul]
  refine ⟨by rw [multiply_rows, hMr2, hBr], by rw [multiply_cols, transpose_cols, hBc], ?_⟩
  intro i hi j hj
  have hi2 : i < A.rows := by rw [multiply_rows, hMr2] at hi; exact hi
  have hj2 : j < A.rows := by rw [multiply_cols, transpose_cols] at hj; exact hj
  have hentry := congrFun (congrFun hfin ⟨i, hi2⟩) ⟨j, hj2⟩
  rw [toMx_mul_transpose A.rows M A hAc ⟨i, hi2⟩ ⟨j, hj2⟩, toMx_apply] at hentry
  exact hentry

/- ------------------------------------------------------------------ -/
/- Claim C10.                                                          -/
/- ------------------------------------------------------------------ -/

unseal Rat.mul Rat.inv Rat.add Rat.sub in
/-- Claim C10 counterexample: for A = [[1e-7]], inverse(A) succeeds (the
pivot 1e-7 clears the 1e-12 threshold) and yields [[1e7]], but
pseudoinverse(A) fails with SingularMatrix, because the normal matrix
Aᵗ A = [[1e-14]] falls below the pivot threshold — so the claimed result
of pseudoinverse(A) does not exist, let alone equal inverse(A). -/
theorem pseudoinverse_of_invertible_cx :
    resErr (inverse (ofRows [[1/10^7]] : Mat ℚ)) = none ∧
    resEntry (inverse (ofRows [[1/10^7]] : Mat ℚ)) 0 0 = 10^7 ∧
    pseudoinverse (ofRows [[1/10^7]] : Mat ℚ) = .error .SingularMatrix := by
  refine ⟨by decide, by decide, by rfl⟩

/-- Claim C10 (amended): for every square A on which inverse succeeds,
pseudoinverse takes the rows-at-least-cols branch, i.e. it equals the
mapped result of inverting Aᵗ A; and whenever that inner inversion also
succeeds with M, the pseudoinverse result M Aᵗ equals inverse(A) exactly.
(The inner inversion can fail with SingularMatrix even though inverse(A)
succeeds, e.g. A = [[1e-7]].) -/
theorem pseudoinverse_of_invertible :
    ∀ A B : Mat ℚ, inverse A = .ok B →
      (pseudoinverse A
        = (inverse (multiply (transpose A) A)).map fun M => multiply M (transpose A)) ∧
      ∀ M, inverse (multiply (transpose A) A) = .ok M →
        pseudoinverse A = .ok (multiply M (transpose A)) ∧
        MatExt (multiply M (transpose A)) B := by
  intro A B hB
  obtain ⟨hsq, hpos, -, -, -⟩ := inverse_ok_elim A B hB
  exact ⟨pseudoinverse_tall A hpos (by omega) (by omega),
    fun M hM => pinv_agrees_inverse A B M hB hM⟩

unseal Rat.mul Rat.inv Rat.add Rat.sub in
/-- Witness for C10 (amended) at A = [[4,7],[2,6]]: the pseudoinverse
value (Aᵗ A)⁻¹ Aᵗ agrees extensionally with the Gauss-Jordan inverse. -/
theorem pseudoinverse_of_invertible_witness :
    MatExt
      (multiply
        (resMat (inverse (multiply (transpose (ofRows [[4,7],[2,6]] : Mat ℚ))
          (ofRows [[4,7],[2,6]]))))
        (transpose (ofRows [[4,7],[2,6]] : Mat ℚ)))
      (resMat (inverse (ofRows [[4,7],[2,6]] : Mat ℚ))) :=
  ((pseudoinverse_of_invertible (ofRows [[4,7],[2,6]])
    (resMat (inverse (ofRows [[4,7],[2,6]]))) rfl).2 _ rfl).2

/- ------------------------------------------------------------------ -/
/- Condition number.                                                   -/
/- ------------------------------------------------------------------ -/

lemma condition_number_ok (A P : Mat ℚ) (h : pseudoinverse A = .ok P) :
    condition_number A = .ok (frobenius_norm A * frobenius_norm P) := by
  unfold condition_number
  rw [h]
  rfl

lemma condition_number_err (A : Mat ℚ) (e : LinError) (h : pseudoinverse A = .error e) :
    condition_number A = .error e := by
  unfold condition_number
  rw [h]
  rfl

lemma frob_cast (A : Mat ℚ) :
    frobenius_norm A = Real.sqrt
      (((∑ i in Finset.range A.rows, ∑ j in Finset.range A.cols,
        A.entry i j * A.entry i j : ℚ) : ℝ)) := by
  unfold frobenius_norm
  congr 1
  push_cast
  rfl

unseal Rat.mul Rat.inv Rat.add Rat.sub in
lemma pinv_B_ok : pseudoinverse (ofRows [[1,2],[3,4],[5,6]] : Mat ℚ)
    = .ok (resMat (pseudoinverse (ofRows [[1,2],[3,4],[5,6]] : Mat ℚ))) := rfl

unseal Rat.mul Rat.inv Rat.add Rat.sub in
lemma fro_B_sum :
    (∑ i in Finset.range (ofRows [[1,2],[3,4],[5,6]] : Mat ℚ).rows,
      ∑ j in Finset.range (ofRows [[1,2],[3,4],[5,6]] : Mat ℚ).cols,
        (ofRows [[1,2],[3,4],[5,6]] : Mat ℚ).entry i j
          * (ofRows [[1,2],[3,4],[5,6]] : Mat ℚ).entry i j) = (91 : ℚ) := by
  decide

unseal Rat.mul Rat.inv Rat.add Rat.sub in
lemma fro_P_sum :
    (∑ i in Finset.range (resMat (pseudoinverse (ofRows [[1,2],[3,4],[5,6]] : Mat ℚ))).rows,
      ∑ j in Finset.range (resMat (pseudoinverse (ofRows [[1,2],[3,4],[5,6]] : Mat ℚ))).cols,
        (resMat (pseudoinverse (ofRows [[1,2],[3,4],[5,6]] : Mat ℚ))).entry i j
          * (resMat (pseudoinverse (ofRows [[1,2],[3,4],[5,6]] : Mat ℚ))).entry i j)
      = (91 / 24 : ℚ) := by
  decide

lemma cond_B_value :
    ∃ c : ℝ, condition_number (ofRows [[1,2],[3,4],[5,6]] : Mat ℚ) = .ok c ∧
      0 < c ∧ c < 10 ^ 4 := by
  refine ⟨_, condition_number_ok _ _ pinv_B_ok, ?_, ?_⟩
  · apply mul_pos
    · rw [frob_cast, fro_B_sum]
      apply Real.sqrt_pos.mpr
      norm_num
    · rw [frob_cast, fro_P_sum]
      apply Real.sqrt_pos.mpr
      norm_num
  · rw [frob_cast, fro_B_sum, frob_cast, fro_P_sum]
    rw [← Real.sqrt_mul (by norm_num : (0 : ℝ) ≤ ((91 : ℚ) : ℝ))]
    rw [show (((91 : ℚ) : ℝ) * ((91 / 24 : ℚ) : ℝ)) = 8281 / 24 by push_cast; norm_num]
    rw [show ((10 : ℝ) ^ 4) = Real.sqrt ((10 ^ 4) ^ 2) by
      rw [Real.sqrt_sq (by norm_num : (0 : ℝ) ≤ 10 ^ 4)]]
    apply Real.sqrt_lt_sqrt (by norm_num)
    norm_num

/- ------------------------------------------------------------------ -/
/- Claim C9.                                                           -/
/- ------------------------------------------------------------------ -/

/-- Claim C9: `condition_number(A)` equals the product of the Frobenius
norms of A and of its pseudoinverse whenever the pseudoinverse succeeds,
and fails with exactly the condition the pseudoinverse fails with
otherwise; for B = [[1,2],[3,4],[5,6]] the value is finite and strictly
between 0 and 1e4 (it is √91·√(91/24) ≈ 18.6). -/
theorem condition_number_spec :
    (∀ (A P : Mat ℚ), pseudoinverse A = .ok P →
      condition_number A = .ok (frobenius_norm A * frobenius_norm P)) ∧
    (∀ (A : Mat ℚ) (e : LinError), pseudoinverse A = .error e →
      condition_number A = .error e) ∧
    ∃ c : ℝ, condition_number (ofRows [[1,2],[3,4],[5,6]] : Mat ℚ) = .ok c ∧
      0 < c ∧ c < 10 ^ 4 :=
  ⟨condition_number_ok, condition_number_err, cond_B_value⟩

unseal Rat.mul Rat.inv Rat.add Rat.sub in
/-- Witness for C9: error propagation applied at A = [[1e-7]], whose
pseudoinverse fails with SingularMatrix. -/
theorem condition_number_spec_witness :
    condition_number (ofRows [[1/10^7]] : Mat ℚ) = .error .SingularMatrix :=
  condition_number_spec.2.1 _ _ rfl

/- ------------------------------------------------------------------ -/
/- Claim C1: exact evaluation of qr_decompose on [[0,1],[1,0]].        -/
/- ------------------------------------------------------------------ -/

lemma M01_e00 : M01.entry 0 0 = 0 := rfl

lemma M01_e01 : M01.entry 0 1 = 1 := rfl

lemma M01_e10 : M01.entry 1 0 = 1 := rfl

lemma M01_e11 : M01.entry 1 1 = 0 := rfl

lemma M01_rows2 : M01.rows = 2 := rfl

lemma M01_cols2 : M01.cols = 2 := rfl

lemma sqrt_four : Real.sqrt 4 = 2 := by
  rw [show (4 : ℝ) = 2 ^ 2 by norm_num, Real.sqrt_sq (by norm_num : (0 : ℝ) ≤ 2)]

lemma inv_sqrt_two_mul : 2 * (Real.sqrt 2)⁻¹ * (Real.sqrt 2)⁻¹ = 1 := by
  rw [mul_assoc, ← mul_inv, Real.mul_self_sqrt (by norm_num : (0 : ℝ) ≤ 2)]
  norm_num

lemma hh_dims (A Q : Mat ℝ) (s c : ℕ) :
    (householder_reflect A Q s c).1.rows = A.rows ∧
    (householder_reflect A Q s c).1.cols = A.cols ∧
    (householder_reflect A Q s c).2.rows = Q.rows ∧
    (householder_reflect A Q s c).2.cols = Q.cols := by
  simp only [householder_reflect]
  split_ifs <;> exact ⟨rfl, rfl, rfl, rfl⟩

lemma qrS1_R11 : qrS1.1.entry 1 1 = -1 := by
  unfold qrS1
  norm_num [householder_reflect, M01_rows2, M01_cols2, M01_e00, M01_e01, M01_e10, M01_e11,
    identity_rows, identity_cols, identity_entry, Finset.sum_range_succ, Finset.sum_range_zero,
    Real.sqrt_one, Real.sqrt_eq_zero']
  exact inv_sqrt_two_mul

lemma qrS1_R01 : qrS1.1.entry 0 1 = 0 := by
  unfold qrS1
  norm_num [householder_reflect, M01_rows2, M01_cols2, M01_e00, M01_e01, M01_e10, M01_e11,
    identity_rows, identity_cols, identity_entry, Finset.sum_range_succ, Finset.sum_range_zero,
    Real.sqrt_one, Real.sqrt_eq_zero']
  linarith [inv_sqrt_two_mul]

lemma qrS1_Q00 : qrS1.2.entry 0 0 = 0 := by
  unfold qrS1
  norm_num [householder_reflect, M01_rows2, M01_cols2, M01_e00, M01_e01, M01_e10, M01_e11,
    identity_rows, identity_cols, identity_entry, Finset.sum_range_succ, Finset.sum_range_zero,
    Real.sqrt_one, Real.sqrt_eq_zero']
  linarith [inv_sqrt_two_mul]

lemma qrS1_Q10 : qrS1.2.entry 1 0 = -1 := by
  unfold qrS1
  norm_num [householder_reflect, M01_rows2, M01_cols2, M01_e00, M01_e01, M01_e10, M01_e11,
    identity_rows, identity_cols, identity_entry, Finset.sum_range_succ, Finset.sum_range_zero,
    Real.sqrt_one, Real.sqrt_eq_zero']
  exact inv_sqrt_two_mul

lemma qrS1_rows : qrS1.1.rows = 2 := by
  unfold qrS1
  rw [(hh_dims M01 (identity 2) 0 0).1, M01_rows2]

lemma qrS1_cols : qrS1.1.cols = 2 := by
  unfold qrS1
  rw [(hh_dims M01 (identity 2) 0 0).2.1, M01_cols2]

lemma qrS2_R01 : qrS2.1.entry 0 1 = 0 := by
  unfold qrS2
  norm_num [householder_reflect, qrS1_rows, qrS1_cols, qrS1_R11, qrS1_R01,
    Finset.sum_range_succ, Finset.sum_range_zero, Real.sqrt_one, Real.sqrt_eq_zero', sqrt_four]

lemma qrS2_R11 : qrS2.1.entry 1 1 = 1 := by
  unfold qrS2
  norm_num [householder_reflect, qrS1_rows, qrS1_cols, qrS1_R11, qrS1_R01,
    Finset.sum_range_succ, Finset.sum_range_zero, Real.sqrt_one, Real.sqrt_eq_zero', sqrt_four]

lemma qrS2_Q00 : qrS2.2.entry 0 0 = 0 := by
  unfold qrS2
  norm_num [householder_reflect, qrS1_rows, qrS1_cols, qrS1_R11, qrS1_Q00,
    Finset.sum_range_succ, Finset.sum_range_zero, Real.sqrt_one, Real.sqrt_eq_zero', sqrt_four]

lemma qrS2_Q10 : qrS2.2.entry 1 0 = -1 := by
  unfold qrS2
  norm_num [householder_reflect, qrS1_rows, qrS1_cols, qrS1_R11, qrS1_Q10,
    Finset.sum_range_succ, Finset.sum_range_zero, Real.sqrt_one, Real.sqrt_eq_zero', sqrt_four]

lemma qrM01_eq : qr_decompose M01
    = (transpose qrS2.2,
       ⟨2, 2, fun i j => if j < i ∧ j < 2 then 0 else qrS2.1.entry i j⟩) := rfl

lemma qrS2_Qrows : qrS2.2.rows = 2 := by
  unfold qrS2
  rw [(hh_dims qrS1.1 qrS1.2 1 1).2.2.1]
  unfold qrS1
  rw [(hh_dims M01 (identity 2) 0 0).2.2.1, identity_rows]

/-- Claim C1 (code bug exhibit): on A = [[0,1],[1,0]], the Q and R
returned by qr_decompose satisfy (Q R)[0][1] = -1 exactly, while
A[0][1] = 1 — the product Q R does not reproduce A (off by 2, far beyond
any 1e-6 tolerance).  The defect is the final transposition of the
accumulated Q: the accumulation multiplies the reflections on the right,
which already yields the conventional Q. -/
theorem qr_product_bug :
    (matmul (qr_decompose M01).1 (qr_decompose M01).2).entry 0 1 = -1 ∧
    M01.entry 0 1 = 1 := by
  refine ⟨?_, rfl⟩
  rw [qrM01_eq, matmul_entry]
  rw [show (transpose qrS2.2).cols = 2 from by rw [transpose_cols, qrS2_Qrows]]
  rw [Finset.sum_range_succ, Finset.sum_range_one]
  rw [transpose_entry, transpose_entry]
  rw [show (⟨2, 2, fun i j => if j < i ∧ j < 2 then 0 else qrS2.1.entry i j⟩ : Mat ℝ).entry 0 1
      = qrS2.1.entry 0 1 from rfl]
  rw [show (⟨2, 2, fun i j => if j < i ∧ j < 2 then 0 else qrS2.1.entry i j⟩ : Mat ℝ).entry 1 1
      = qrS2.1.entry 1 1 from rfl]
  rw [qrS2_Q00, qrS2_Q10, qrS2_R01, qrS2_R11]
  norm_num

end lin
